import Mathlib

/-!
Verification of `scripts/generate-mumble_qt-qrc.py`, a build-time helper that
scans directories of compiled Qt translation files (`*.qm`), filters them by a
naming convention, and writes a QRC resource-manifest XML file.

The script is embedded shallowly: Python strings are Lean `String`s, Python
string primitives (`strip`, `lower`, `rfind`, slicing, `os.path.splitext`,
`os.path.flatten`) are modelled as executable Lean functions with the same
semantics on the inputs the script handles (ASCII filenames, POSIX separators),
file-system state (directory listings, config file lines) is passed in
explicitly, and the sequential writes to the output file are accumulated in a
string field.
-/

namespace MumbleQrc

/-- Python `str.strip` whitespace class (ASCII part): space, tab, newline,
carriage return, vertical tab, form feed. -/
def isPyWs (c : Char) : Bool :=
  c = ' ' || c = '\t' || c = '\n' || c = '\r' || c = '\x0b' || c = '\x0c'

/-- Python `str.strip()` on a character list. -/
def pyStripList (s : List Char) : List Char :=
  ((s.dropWhile isPyWs).reverse.dropWhile isPyWs).reverse

/-- Python `str.strip()`. -/
def pyStrip (s : String) : String := ⟨pyStripList s.data⟩

/-- Python `str.lower()` (ASCII). -/
def pyLower (s : String) : String := ⟨s.data.map Char.toLower⟩

/-- Python `s.startswith(pre)`. -/
def pyStartsWith (s pre : String) : Bool := s.data.take pre.data.length = pre.data

/-- Python `s.endswith(suffix)`. -/
def pyEndsWith (s suffix : String) : Bool :=
  s.data.reverse.take suffix.data.length = suffix.data.reverse

/-- Helper for Python `str.rfind`: scan left to right remembering the last
index at which the character occurred (`-1` when it never did). -/
def pyRfindAux (c : Char) : List Char → Nat → Int → Int
  | [], _, best => best
  | x :: xs, i, best => pyRfindAux c xs (i + 1) (if x = c then (i : Int) else best)

/-- Python `s.rfind(c)`: index of the last occurrence of `c`, or `-1`. -/
def pyRfind (s : List Char) (c : Char) : Int := pyRfindAux c s 0 (-1)

/-- Python slice `s[:i]` for a possibly negative index `i`. -/
def pySliceTo (s : List Char) (i : Int) : List Char :=
  if i < 0 then s.take (s.length - min s.length i.natAbs) else s.take i.toNat

/-- Python slice `s[i:]` for a possibly negative index `i`. -/
def pySliceFrom (s : List Char) (i : Int) : List Char :=
  if i < 0 then s.drop (s.length - min s.length i.natAbs) else s.drop i.toNat

/-- `os.path.splitext` (POSIX): split at the last dot of the basename, unless
the basename up to that dot consists only of dots (leading-dot files have no
extension). Mirrors CPython `genericpath._splitext` with `sep = '/'`. -/
def pySplitext (p : String) : String × String :=
  let s := p.data
  let sepIndex := pyRfind s '/'
  let dotIndex := pyRfind s '.'
  if sepIndex < dotIndex then
    let between := (s.take dotIndex.toNat).drop (sepIndex + 1).toNat
    if between.any (fun c => c ≠ '.') then
      (⟨s.take dotIndex.toNat⟩, ⟨s.drop dotIndex.toNat⟩)
    else (p, "")
  else (p, "")

/-- `os.path.flatten` for two arguments (POSIX). -/
def pyJoin (a b : String) : String :=
  if pyStartsWith b "/" then b
  else if a = "" || pyEndsWith a "/" then a ++ b
  else a ++ "/" ++ b

/-- `getComponentName` from the script: strip the extension, split at the last
underscore into component and locale; when the locale segment is entirely
uppercase (an `en_US`-style country code), re-split one underscore earlier.
The reassigned `lang` in the source is unused for the return value. -/
def getComponentName (fileName0 : String) : String :=
  let fileName := (pySplitext fileName0).1
  let s := fileName.data
  let lastUnderscoreIdx := pyRfind s '_'
  if lastUnderscoreIdx = -1 then ""
  else
    let component := pySliceTo s lastUnderscoreIdx
    let lang := pySliceFrom s (lastUnderscoreIdx + 1)
    if lang.map Char.toUpper = lang then
      let lastUnderscoreIdx2 := pyRfind component '_'
      ⟨pySliceTo s lastUnderscoreIdx2⟩
    else ⟨component⟩

/-- `allowed_components` global from the script. -/
def allowed_components : List String := ["qt", "qtbase"]

/-- Helper for Python `s.split(" ", 1)`: scan for the first separator,
accumulating the prefix reversed. -/
def splitOnceAux (sep : Char) : List Char → List Char → Option (List Char × List Char)
  | _, [] => none
  | acc, c :: cs => if c = sep then some (acc.reverse, cs) else splitOnceAux sep (c :: acc) cs

/-- Python `s.split(sep, 1)` for a one-character separator: one part when the
separator does not occur, otherwise the text before the first occurrence and
everything after it. -/
def pySplitOnce (s : String) (sep : Char) : List String :=
  match splitOnceAux sep [] s.data with
  | none => [s]
  | some (a, b) => [⟨a⟩, ⟨b⟩]

/-- The two global lists the config parser fills: `local_qt_translations` and
`override_qt`. Both start empty; the script runs the parser at most once. -/
structure ConfigAcc where
  local_qt_translations : List String
  override_qt : List String
  deriving DecidableEq, Repr

/-- One iteration of the loop in `parseTranslationsConfig`: strip the line,
skip comments and blanks, split at the first space into operator and filename,
validate the filename (`non-empty`, `*.ts`), rewrite the trailing `.ts` to
`.qm`, append to `local_qt_translations`, and additionally to `override_qt`
when the lowercased operator is `overwrite` or `override`. -/
def parseConfigLine (acc : ConfigAcc) (line : String) : Except String ConfigAcc :=
  let currentLine := pyStrip line
  if pyStartsWith currentLine "#" = true ∨ currentLine = "" then .ok acc
  else
    let splitParts := pySplitOnce currentLine ' '
    if splitParts.length ≠ 2 then
      .error ("Invalid line in translation config file: " ++ currentLine)
    else
      let operator := pyStrip (pyLower (splitParts.headD ""))
      let translationFileName := pyStrip (splitParts.getD 1 "")
      if translationFileName = "" then
        .error ("Empty filename in translation config: " ++ currentLine)
      else if pyEndsWith translationFileName ".ts" = false then
        .error ("Expected translation file to have a '*.ts' name but got "
                ++ translationFileName)
      else
        let qmName : String := ⟨pySliceTo translationFileName.data (-3)⟩ ++ ".qm"
        let acc' := { acc with
          local_qt_translations := acc.local_qt_translations ++ [qmName] }
        if operator = "fallback" then .ok acc'
        else if operator = "overwrite" ∨ operator = "override" then
          .ok { acc' with override_qt := acc'.override_qt ++ [qmName] }
        else .ok acc'

/-- The loop of `parseTranslationsConfig` over the config file's lines; the
first `raise` aborts the whole parse. -/
def parseConfigLines (acc : ConfigAcc) : List String → Except String ConfigAcc
  | [] => .ok acc
  | l :: ls =>
    match parseConfigLine acc l with
    | .error e => .error e
    | .ok acc' => parseConfigLines acc' ls

/-- `parseTranslationsConfig`, starting from the empty global lists. -/
def parseTranslationsConfig (lines : List String) : Except String ConfigAcc :=
  parseConfigLines ⟨[], []⟩ lines

/-- One `<file .../>` line written to the manifest, together with model
bookkeeping: the source filename the entry came from, its stem (`name` in the
script), and which branch of `filesToQrc` wrote it. The written alias is
`fileName` for a plain bundle and `"mumble_overwrite_" ++ fileName` for an
override bundle. -/
structure Entry where
  fileAlias : String
  path : String
  fileName : String
  name : String
  isOverride : Bool
  deriving DecidableEq, Repr

/-- The override alias marker used by `filesToQrc`. -/
def ovMarker : String := "mumble_overwrite_"

/-- Result of a (partial) run of the filter: the text written to the output
file so far, the manifest entries it encodes, and the
`processedComponents` registry as returned. -/
structure QrcResult where
  out : String
  entries : List Entry
  reg : List String
  deriving DecidableEq, Repr

/-- The body of the `for` loop of `filesToQrc` for one `currentFileName`:
decide override status (`f ∈ override_qt and localTranslationDir`), skip
non-`.qm` files, skip components outside the allow-list, skip stems already
registered unless the entry is an override, then write the entry (registering
the stem only in the non-override branch). -/
def processFile (ov : List String) (loc : Bool) (directoryPath : String)
    (reg : List String) (f : String) : QrcResult :=
  let isOverride : Bool := decide (f ∈ ov) && loc
  let name := (pySplitext f).1
  let extension := (pySplitext f).2
  if extension ≠ ".qm" then ⟨"", [], reg⟩
  else if getComponentName f ∉ allowed_components then ⟨"", [], reg⟩
  else if name ∈ reg ∧ isOverride = false then ⟨"", [], reg⟩
  else
    let currentFilePath := pyJoin directoryPath f
    if isOverride = false then
      ⟨" <file alias=\"" ++ f ++ "\">" ++ currentFilePath ++ "</file>\n",
       [⟨f, currentFilePath, f, name, false⟩], reg ++ [name]⟩
    else
      ⟨" <file alias=\"" ++ (ovMarker ++ f) ++ "\">" ++ currentFilePath ++ "</file>\n",
       [⟨ovMarker ++ f, currentFilePath, f, name, true⟩], reg⟩

/-- `filesToQrc`: fold the loop body over `fileNames`, threading the registry
and concatenating the written output. -/
def filesToQrc (ov : List String) (reg : List String) (fileNames : List String)
    (directoryPath : String) (loc : Bool) : QrcResult :=
  match fileNames with
  | [] => ⟨"", [], reg⟩
  | f :: fs =>
    let r1 := processFile ov loc directoryPath reg f
    let r2 := filesToQrc ov r1.reg fs directoryPath loc
    ⟨r1.out ++ r2.out, r1.entries ++ r2.entries, r2.reg⟩

/-- One external translation directory as the script sees it: the absolute
path `os.path.abspath` produced and the `os.listdir` listing. -/
structure DirInput where
  path : String
  listing : List String
  deriving DecidableEq, Repr

/-- The loop over `args.translation_dir` in `main`: each `dirToQrc` call runs
`filesToQrc` on the directory listing and returns the very registry list it
mutated in place, which `main` then `extend`s onto the registry — doubling
it. -/
def processDirs (ov : List String) (reg : List String) : List DirInput → QrcResult
  | [] => ⟨"", [], reg⟩
  | d :: ds =>
    let r1 := filesToQrc ov reg d.listing d.path false
    let r2 := processDirs ov (r1.reg ++ r1.reg) ds
    ⟨r1.out ++ r2.out, r1.entries ++ r2.entries, r2.reg⟩

/-- The config-parsing step of `main`: when
`<local-translation-dir>/translations.conf` is not a file the parse is skipped
and the global lists stay empty. -/
def configOf : Option (List String) → Except String ConfigAcc
  | none => .ok ⟨[], []⟩
  | some lines => parseTranslationsConfig lines

/-- The final output of a run that passed config parsing. -/
structure RunResult where
  out : String
  entries : List Entry
  deriving DecidableEq, Repr

/-- The body of the `with open(args.output, 'w')` block in `main`: header
lines, the external directories in command-line order, the local-translation
pass over `local_qt_translations` (with override semantics enabled and
`args.local_translation_dir` as the path), and the closing tags. -/
def runBuild (acc : ConfigAcc) (dirs : List DirInput) (localDir : String) : RunResult :=
  let r := processDirs acc.override_qt [] dirs
  let rl := filesToQrc acc.override_qt r.reg acc.local_qt_translations localDir true
  ⟨"<!DOCTYPE RCC><RCC version=\"1.0\">\n" ++ "<qresource>\n"
     ++ (r.out ++ rl.out) ++ "</qresource>\n" ++ "</RCC>\n",
   r.entries ++ rl.entries⟩

/-- `main` after argument parsing: the config file is parsed in full before
the output path is opened, so a config error yields no manifest at all. -/
def runMain (cfg : Option (List String)) (dirs : List DirInput)
    (localDir : String) : Except String RunResult :=
  match configOf cfg with
  | .error e => .error e
  | .ok acc => .ok (runBuild acc dirs localDir)

/-! ### Basic lemmas about the Python string primitives -/

lemma string_data_inj {s t : String} (h : s.data = t.data) : s = t :=
  congrArg String.mk h

lemma pyRfindAux_of_not_mem (c : Char) :
    ∀ (s : List Char), c ∉ s → ∀ i b, pyRfindAux c s i b = b := by
  intro s
  induction s with
  | nil => intro _ i b; rfl
  | cons x xs ih =>
    intro h i b
    have hx : ¬ x = c := fun hxc => h (hxc ▸ List.mem_cons_self x xs)
    have hxs : c ∉ xs := fun hm => h (List.mem_cons_of_mem _ hm)
    simp only [pyRfindAux, if_neg hx]
    exact ih hxs (i + 1) b

lemma pyRfind_of_not_mem (s : List Char) (c : Char) (h : c ∉ s) :
    pyRfind s c = -1 :=
  pyRfindAux_of_not_mem c s h 0 (-1)

lemma pySliceTo_prefix_self (s : List Char) (i : Int) : pySliceTo s i <+: s := by
  unfold pySliceTo
  split <;> exact List.take_prefix _ _

lemma pySplitext_fst_prefix_self (p : String) : (pySplitext p).1.data <+: p.data := by
  unfold pySplitext
  dsimp only
  split
  · split
    · exact List.take_prefix _ _
    · exact List.prefix_refl _
  · exact List.prefix_refl _

lemma pySplitext_append (p : String) :
    (pySplitext p).1.data ++ (pySplitext p).2.data = p.data := by
  unfold pySplitext
  dsimp only
  split
  · split
    · exact List.take_append_drop _ _
    · simp
  · simp

lemma getComponentName_prefix_self (f : String) :
    (getComponentName f).data <+: f.data := by
  unfold getComponentName
  dsimp only
  split
  · exact List.nil_prefix
  · split
    · exact (pySliceTo_prefix_self _ _).trans (pySplitext_fst_prefix_self f)
    · exact (pySliceTo_prefix_self _ _).trans (pySplitext_fst_prefix_self f)

lemma getComponentName_eq_empty (s : String) (h : '_' ∉ s.data) :
    getComponentName s = "" := by
  have hstem : '_' ∉ (pySplitext s).1.data := fun hm =>
    h ((pySplitext_fst_prefix_self s).subset hm)
  simp only [getComponentName]
  rw [pyRfind_of_not_mem _ _ hstem]
  simp

/-- Claim C4: `getComponentName "mumble_de.qm" = "mumble"`;
`getComponentName "mumble_en_US.qm" = "mumble"` — the all-uppercase locale
segment triggers a re-split one underscore earlier, so `foo_de_DE` yields
component `foo`; and any input without an underscore yields `""`. -/
theorem c4_getComponentName :
    getComponentName "mumble_de.qm" = "mumble" ∧
    getComponentName "mumble_en_US.qm" = "mumble" ∧
    getComponentName "foo_de_DE.qm" = "foo" ∧
    (∀ s : String, '_' ∉ s.data → getComponentName s = "") :=
  ⟨by decide, by decide, by decide, fun s h => getComponentName_eq_empty s h⟩

/-- Concrete instance of the universally quantified part of C4, at the spec's
own example `"noextension"`. -/
theorem c4_witness :
    '_' ∉ ("noextension" : String).data ∧ getComponentName "noextension" = "" :=
  ⟨by decide, c4_getComponentName.2.2.2 "noextension" (by decide)⟩

/-! ### Claim C2: acceptance condition of a config line -/

/-- Modelled from the spec's words for the comparison in claim C2 only (the
code below never uses it): tokenize a line into whitespace-separated tokens
(Python `str.split()` with no argument). -/
def specWhitespaceTokens : List Char → List Char → List (List Char)
  | cur, [] => if cur = [] then [] else [cur.reverse]
  | cur, c :: cs =>
    if isPyWs c then
      if cur = [] then specWhitespaceTokens [] cs
      else cur.reverse :: specWhitespaceTokens [] cs
    else specWhitespaceTokens (c :: cur) cs

/-- Modelled from the spec's words for claim C2: the line splits into exactly
two whitespace-separated tokens (operator and filename), the filename is
non-empty, and the filename ends in `.ts`. -/
def specLineAccepted (line : String) : Bool :=
  let toks := specWhitespaceTokens [] (pyStrip line).data
  decide (toks.length = 2) && decide (toks.getD 1 [] ≠ [])
    && pyEndsWith ⟨toks.getD 1 []⟩ ".ts"

lemma parseConfigLines_singleton (acc : ConfigAcc) (l : String) :
    parseConfigLines acc [l] = parseConfigLine acc l := by
  unfold parseConfigLines
  cases parseConfigLine acc l <;> simp [parseConfigLines]

/-- Claim C2 is refuted: the line `"overwrite a b.ts"` splits into three
whitespace-separated tokens, so by the claim it should be rejected, yet the
parser accepts it — the code splits only at the first space (`split(" ", 1)`),
keeping `"a b.ts"` as the filename. -/
theorem c2_counterexample :
    (parseTranslationsConfig ["overwrite a b.ts"]).isOk = true ∧
    specLineAccepted "overwrite a b.ts" = false ∧
    parseTranslationsConfig ["overwrite a b.ts"] =
      .ok ⟨["a b.qm"], ["a b.qm"]⟩ :=
  ⟨by decide, by decide, rfl⟩

/-- Claim C2 as amended: a non-comment, non-blank config line parses
successfully iff it splits at its first space character into exactly two
parts and the second part, stripped, is non-empty and ends in `.ts`.
Separators other than the literal space do not split, and extra
space-separated tokens are absorbed into the filename. -/
theorem c2_accepts_iff (l : String)
    (hc : pyStartsWith (pyStrip l) "#" = false) (hb : pyStrip l ≠ "") :
    (parseTranslationsConfig [l]).isOk = true ↔
      ((pySplitOnce (pyStrip l) ' ').length = 2 ∧
       pyStrip ((pySplitOnce (pyStrip l) ' ').getD 1 "") ≠ "" ∧
       pyEndsWith (pyStrip ((pySplitOnce (pyStrip l) ' ').getD 1 "")) ".ts" = true) := by
  rw [parseTranslationsConfig, parseConfigLines_singleton]
  unfold parseConfigLine
  dsimp only
  rw [if_neg (by simp [hc, hb])]
  by_cases hlen : (pySplitOnce (pyStrip l) ' ').length = 2
  · rw [if_neg (by simp [hlen])]
    by_cases hemp : pyStrip ((pySplitOnce (pyStrip l) ' ').getD 1 "") = ""
    · rw [if_pos hemp]
      constructor
      · intro h; exact Bool.noConfusion h
      · rintro ⟨-, h2, -⟩; exact absurd hemp h2
    · rw [if_neg hemp]
      by_cases hts : pyEndsWith (pyStrip ((pySplitOnce (pyStrip l) ' ').getD 1 "")) ".ts" = true
      · rw [if_neg (by rw [hts]; simp)]
        refine iff_of_true ?_ ⟨hlen, hemp, hts⟩
        split
        · rfl
        · split
          · rfl
          · rfl
      · rw [if_pos (by simpa using hts)]
        constructor
        · intro h; exact Bool.noConfusion h
        · rintro ⟨-, -, h3⟩; exact absurd h3 hts
  · rw [if_pos hlen]
    constructor
    · intro h; exact Bool.noConfusion h
    · rintro ⟨h1, -, -⟩; exact absurd h1 hlen

/-- Concrete instance of `c2_accepts_iff` at the well-formed line
`"fallback qt_de.ts"`. -/
theorem c2_witness :
    pyStartsWith (pyStrip "fallback qt_de.ts") "#" = false ∧
    pyStrip "fallback qt_de.ts" ≠ "" ∧
    ((parseTranslationsConfig ["fallback qt_de.ts"]).isOk = true ↔
      ((pySplitOnce (pyStrip "fallback qt_de.ts") ' ').length = 2 ∧
       pyStrip ((pySplitOnce (pyStrip "fallback qt_de.ts") ' ').getD 1 "") ≠ "" ∧
       pyEndsWith (pyStrip ((pySplitOnce (pyStrip "fallback qt_de.ts") ' ').getD 1 "")) ".ts"
         = true)) :=
  ⟨by decide, by decide, c2_accepts_iff "fallback qt_de.ts" (by decide) (by decide)⟩

/-! ### Claim C3: operator dispatch on valid config lines -/

lemma data_append (a b : String) : (a ++ b).data = a.data ++ b.data := rfl

lemma splitOnceAux_appended (ys : List Char) :
    ∀ (xs acc : List Char), (∀ c ∈ xs, c ≠ ' ') →
      splitOnceAux ' ' acc (xs ++ ' ' :: ys) = some (acc.reverse ++ xs, ys) := by
  intro xs
  induction xs with
  | nil => intro acc _; simp [splitOnceAux]
  | cons c cs ih =>
    intro acc h
    have hc : ¬ c = ' ' := h c (List.mem_cons_self _ _)
    simp only [List.cons_append, splitOnceAux, if_neg hc]
    show splitOnceAux ' ' (c :: acc) (cs ++ ' ' :: ys) = _
    rw [ih (c :: acc) (fun d hd => h d (List.mem_cons_of_mem _ hd))]
    simp

lemma pySplitOnce_two_tokens (op fn : String) (h : ∀ c ∈ op.data, c ≠ ' ') :
    pySplitOnce (op ++ " " ++ fn) ' ' = [op, fn] := by
  unfold pySplitOnce
  have hd : (op ++ " " ++ fn).data = op.data ++ ' ' :: fn.data := by
    rw [data_append, data_append]
    simp
  rw [hd, splitOnceAux_appended fn.data op.data [] h]
  simp

lemma pyStrip_eq_self (s : String) (h : ∀ c ∈ s.data, isPyWs c = false) :
    pyStrip s = s := by
  apply string_data_inj
  show pyStripList s.data = s.data
  unfold pyStripList
  have h1 : s.data.dropWhile isPyWs = s.data := by
    cases hd : s.data with
    | nil => simp
    | cons x xs =>
      have hx := h x (by rw [hd]; exact List.mem_cons_self _ _)
      simp [List.dropWhile_cons, hx]
  rw [h1]
  have h2 : s.data.reverse.dropWhile isPyWs = s.data.reverse := by
    cases hr : s.data.reverse with
    | nil => simp
    | cons x xs =>
      have hx : x ∈ s.data := by
        have hm : x ∈ s.data.reverse := by rw [hr]; exact List.mem_cons_self _ _
        simpa using hm
      simp [List.dropWhile_cons, h x hx]
  rw [h2, List.reverse_reverse]

/-- Claim C3: a valid config line `op ++ " " ++ fn` (clean operator token, `fn`
already stripped, non-empty, ending in `.ts`) appends `fn` with its extension
rewritten to `.qm` to the local-translations list, and additionally appends it
to the override list iff the lowercased operator equals `overwrite` or
`override`; `fallback` and every other operator leave the override list
unchanged. -/
theorem c3_operator_dispatch (op fn : String) (acc : ConfigAcc)
    (hsp : ∀ c ∈ op.data, c ≠ ' ')
    (hlw : ∀ c ∈ (pyLower op).data, isPyWs c = false)
    (hline : pyStrip (op ++ " " ++ fn) = op ++ " " ++ fn)
    (hc : pyStartsWith (op ++ " " ++ fn) "#" = false)
    (hfn : pyStrip fn = fn) (hfe : fn ≠ "")
    (hts : pyEndsWith fn ".ts" = true) :
    parseConfigLine acc (op ++ " " ++ fn) =
      .ok { local_qt_translations :=
              acc.local_qt_translations ++ [⟨pySliceTo fn.data (-3)⟩ ++ ".qm"],
            override_qt :=
              acc.override_qt ++
                (if pyLower op = "overwrite" ∨ pyLower op = "override"
                 then [⟨pySliceTo fn.data (-3)⟩ ++ ".qm"] else []) } := by
  have hps : pySplitOnce (op ++ " " ++ fn) ' ' = [op, fn] :=
    pySplitOnce_two_tokens op fn hsp
  have hopstr : pyStrip (pyLower op) = pyLower op := pyStrip_eq_self _ hlw
  have hne : (op ++ " " ++ fn) ≠ "" := by
    intro h0
    have : (op ++ " " ++ fn).data = [] := by rw [h0]
    rw [data_append, data_append] at this
    simp at this
  unfold parseConfigLine
  dsimp only
  rw [hline, if_neg (by simp [hc, hne]), hps]
  simp only [List.length_cons, List.length_nil, List.headD_cons, List.getD,
    List.get?_cons_succ, List.get?_cons_zero, List.getElem?_cons_zero,
    List.getElem?_cons_succ, Option.getD_some]
  rw [if_neg (by simp)]
  rw [hfn, if_neg hfe, if_neg (by rw [hts]; simp), hopstr]
  by_cases hfb : pyLower op = "fallback"
  · rw [if_pos hfb, hfb]
    simp
  · rw [if_neg hfb]
    by_cases hov : pyLower op = "overwrite" ∨ pyLower op = "override"
    · rw [if_pos hov, if_pos hov]
    · rw [if_neg hov, if_neg hov]
      simp

/-- Concrete instance of `c3_operator_dispatch`: the uppercase operator
`OVERRIDE` is matched case-insensitively and `qt_de.ts` is rewritten to
`qt_de.qm` in both lists. -/
theorem c3_witness :
    parseConfigLine ⟨[], []⟩ ("OVERRIDE" ++ " " ++ "qt_de.ts") =
      .ok { local_qt_translations := ["qt_de.qm"], override_qt := ["qt_de.qm"] } :=
  c3_operator_dispatch "OVERRIDE" "qt_de.ts" ⟨[], []⟩ (by decide) (by decide)
    (by decide) (by decide) (by decide) (by decide) (by decide)

/-! ### Claim C5: a bad config line aborts the run before any output -/

lemma parseConfigLine_error_of_no_space (acc : ConfigAcc) (l : String)
    (hb : pyStrip l ≠ "") (hc : pyStartsWith (pyStrip l) "#" = false)
    (hlen : (pySplitOnce (pyStrip l) ' ').length ≠ 2) :
    parseConfigLine acc l =
      .error ("Invalid line in translation config file: " ++ pyStrip l) := by
  unfold parseConfigLine
  dsimp only
  rw [if_neg (by simp [hb, hc]), if_pos hlen]

lemma parseConfigLines_isOk_false (l : String)
    (hb : pyStrip l ≠ "") (hc : pyStartsWith (pyStrip l) "#" = false)
    (hlen : (pySplitOnce (pyStrip l) ' ').length ≠ 2) :
    ∀ (lines : List String) (acc : ConfigAcc), l ∈ lines →
      (parseConfigLines acc lines).isOk = false := by
  intro lines
  induction lines with
  | nil => intro acc h; cases h
  | cons x xs ih =>
    intro acc hmem
    unfold parseConfigLines
    rcases List.mem_cons.mp hmem with rfl | hxs
    · rw [parseConfigLine_error_of_no_space acc l hb hc hlen]
      rfl
    · cases hpc : parseConfigLine acc x with
      | error e => rfl
      | ok a => exact ih a hxs

/-- Claim C5: when some config line fails the two-token format check, parsing
fails and the whole run yields no manifest — in the script the config file is
parsed in full before `open(args.output, 'w')` runs, which the model mirrors
by sequencing `configOf` before `runBuild`. -/
theorem c5_no_manifest_on_bad_line (lines : List String) (dirs : List DirInput)
    (localDir l : String) (hmem : l ∈ lines) (hb : pyStrip l ≠ "")
    (hc : pyStartsWith (pyStrip l) "#" = false)
    (hlen : (pySplitOnce (pyStrip l) ' ').length ≠ 2) :
    (parseTranslationsConfig lines).isOk = false ∧
    (runMain (some lines) dirs localDir).isOk = false := by
  have hp := parseConfigLines_isOk_false l hb hc hlen lines ⟨[], []⟩ hmem
  refine ⟨hp, ?_⟩
  simp only [runMain, configOf]
  cases hq : parseTranslationsConfig lines with
  | error e => rfl
  | ok a =>
    have hp' : (parseTranslationsConfig lines).isOk = false := hp
    rw [hq] at hp'
    exact Bool.noConfusion hp'

/-- Concrete instance of `c5_no_manifest_on_bad_line`: a one-token line in the
middle of an otherwise valid config aborts the run with no manifest. -/
theorem c5_witness :
    (parseTranslationsConfig ["fallback qt_de.ts", "justonetoken"]).isOk = false ∧
    (runMain (some ["fallback qt_de.ts", "justonetoken"])
        [⟨"/ext", ["qt_de.qm"]⟩] "/loc").isOk = false :=
  c5_no_manifest_on_bad_line ["fallback qt_de.ts", "justonetoken"]
    [⟨"/ext", ["qt_de.qm"]⟩] "/loc" "justonetoken"
    (by decide) (by decide) (by decide) (by decide)

/-! ### Structure of `filesToQrc` runs -/

/-- The stems registered by a list of entries: exactly the `name`s of the
non-override entries, in order. -/
def nonOvNames (es : List Entry) : List String :=
  (es.filter (fun e => !e.isOverride)).map Entry.name

/-- The XML line `filesToQrc` writes for an entry. -/
def entryLine (e : Entry) : String :=
  " <file alias=\"" ++ e.fileAlias ++ "\">" ++ e.path ++ "</file>\n"

/-- Concatenation of written fragments. -/
def strJoin : List String → String
  | [] => ""
  | s :: rest => s ++ strJoin rest

/-- Remove the override marker from an alias when present. -/
def stripMarker (s : String) : String :=
  if pyStartsWith s ovMarker then ⟨s.data.drop ovMarker.data.length⟩ else s

lemma nonOvNames_nil : nonOvNames [] = [] := rfl

lemma nonOvNames_append (a b : List Entry) :
    nonOvNames (a ++ b) = nonOvNames a ++ nonOvNames b := by
  simp [nonOvNames]

lemma mem_nonOvNames {s : String} {es : List Entry} :
    s ∈ nonOvNames es ↔ ∃ e ∈ es, e.isOverride = false ∧ e.name = s := by
  simp [nonOvNames, List.mem_filter]
  tauto

lemma strJoin_append (a b : List String) :
    strJoin (a ++ b) = strJoin a ++ strJoin b := by
  induction a with
  | nil => simp [strJoin]
  | cons x xs ih => simp [strJoin, ih, String.append_assoc]

lemma eq_of_stem_ext {f g : String} (h1 : (pySplitext f).1 = (pySplitext g).1)
    (h2 : (pySplitext f).2 = (pySplitext g).2) : f = g := by
  apply string_data_inj
  rw [← pySplitext_append f, ← pySplitext_append g, h1, h2]

/-- Claim C1's skip behaviour, non-override side: a filename whose stem is
already registered is skipped with nothing written and nothing registered,
whenever override status does not hold (not in the override list, or not the
local-translation pass). -/
lemma processFile_skip_of_mem (ov : List String) (loc : Bool) (d : String)
    (reg : List String) (f : String) (hmem : (pySplitext f).1 ∈ reg)
    (hno : ¬ (f ∈ ov ∧ loc = true)) :
    processFile ov loc d reg f = ⟨"", [], reg⟩ := by
  have hov : (decide (f ∈ ov) && loc) = false := by
    cases hl : loc with
    | false => simp
    | true =>
      have hf : f ∉ ov := fun hfo => hno ⟨hfo, hl⟩
      simp [hf]
  unfold processFile
  dsimp only
  rw [hov]
  by_cases he : (pySplitext f).2 ≠ ".qm"
  · rw [if_pos he]
  · rw [if_neg he]
    by_cases hcp : getComponentName f ∉ allowed_components
    · rw [if_pos hcp]
    · rw [if_neg hcp, if_pos ⟨hmem, rfl⟩]

/-- Claim C1's override behaviour: a file in the override list during the
local pass that survives the extension and allow-list checks is written with
the `mumble_overwrite_` alias marker and the registry is not updated, even
when its stem is already registered. -/
lemma processFile_override (ov : List String) (d : String) (reg : List String)
    (f : String) (hov : f ∈ ov) (hqm : (pySplitext f).2 = ".qm")
    (hcp : getComponentName f ∈ allowed_components) :
    processFile ov true d reg f =
      ⟨" <file alias=\"" ++ (ovMarker ++ f) ++ "\">" ++ pyJoin d f ++ "</file>\n",
       [⟨ovMarker ++ f, pyJoin d f, f, (pySplitext f).1, true⟩], reg⟩ := by
  have hT : (decide (f ∈ ov) && true) = true := by simp [hov]
  unfold processFile
  dsimp only
  rw [hT, if_neg (by rw [hqm]; simp), if_neg (not_not_intro hcp),
    if_neg (by simp), if_neg (by simp)]

/-- Non-override emission: with override status false, a `.qm` file with an
allowed component and a fresh stem is written under its own name and its stem
appended to the registry. -/
lemma processFile_plain (ov : List String) (loc : Bool) (d : String)
    (reg : List String) (f : String) (hno : (decide (f ∈ ov) && loc) = false)
    (hqm : (pySplitext f).2 = ".qm") (hcp : getComponentName f ∈ allowed_components)
    (hfresh : (pySplitext f).1 ∉ reg) :
    processFile ov loc d reg f =
      ⟨" <file alias=\"" ++ f ++ "\">" ++ pyJoin d f ++ "</file>\n",
       [⟨f, pyJoin d f, f, (pySplitext f).1, false⟩], reg ++ [(pySplitext f).1]⟩ := by
  unfold processFile
  dsimp only
  rw [hno, if_neg (by rw [hqm]; simp), if_neg (not_not_intro hcp),
    if_neg (by simp [hfresh]), if_pos rfl]

/-- Exhaustive description of one loop iteration: either the file is skipped
with no output and an unchanged registry, or exactly one entry is emitted, its
line written, and the registry extended by its stem exactly when it is not an
override. -/
lemma processFile_cases (ov : List String) (loc : Bool) (d : String)
    (reg : List String) (f : String) :
    processFile ov loc d reg f = ⟨"", [], reg⟩ ∨
    ∃ e : Entry, processFile ov loc d reg f =
        ⟨entryLine e, [e], if e.isOverride then reg else reg ++ [e.name]⟩ ∧
      e.fileName = f ∧ e.name = (pySplitext f).1 ∧ e.path = pyJoin d f ∧
      (pySplitext f).2 = ".qm" ∧ getComponentName f ∈ allowed_components ∧
      (e.isOverride = false → e.fileAlias = f ∧ e.name ∉ reg) ∧
      (e.isOverride = true → e.fileAlias = ovMarker ++ f ∧ f ∈ ov ∧ loc = true) := by
  by_cases he : (pySplitext f).2 ≠ ".qm"
  · left
    unfold processFile
    dsimp only
    rw [if_pos he]
  · have hqm : (pySplitext f).2 = ".qm" := not_not.mp he
    by_cases hcp : getComponentName f ∉ allowed_components
    · left
      unfold processFile
      dsimp only
      rw [if_neg he, if_pos hcp]
    · have hcomp := not_not.mp hcp
      by_cases hob : (decide (f ∈ ov) && loc) = false
      · by_cases hfresh : (pySplitext f).1 ∈ reg
        · left
          unfold processFile
          dsimp only
          rw [if_neg he, if_neg hcp, if_pos ⟨hfresh, hob⟩]
        · right
          refine ⟨⟨f, pyJoin d f, f, (pySplitext f).1, false⟩,
            processFile_plain ov loc d reg f hob hqm hcomp hfresh,
            rfl, rfl, rfl, hqm, hcomp, ?_, ?_⟩
          · intro _; exact ⟨rfl, hfresh⟩
          · intro h; exact Bool.noConfusion h
      · have hoT : (decide (f ∈ ov) && loc) = true := by
          cases h2 : (decide (f ∈ ov) && loc) with
          | false => exact absurd h2 hob
          | true => rfl
        have hparts : decide (f ∈ ov) = true ∧ loc = true := by simpa using hoT
        have hfov : f ∈ ov := of_decide_eq_true hparts.1
        have hloc : loc = true := hparts.2
        right
        refine ⟨⟨ovMarker ++ f, pyJoin d f, f, (pySplitext f).1, true⟩, ?_,
          rfl, rfl, rfl, hqm, hcomp, ?_, ?_⟩
        · rw [hloc]
          exact processFile_override ov d reg f hfov hqm hcomp
        · intro h; exact Bool.noConfusion h
        · intro _; exact ⟨rfl, hfov, hloc⟩

lemma filesToQrc_nil (ov : List String) (reg : List String) (d : String)
    (loc : Bool) : filesToQrc ov reg [] d loc = ⟨"", [], reg⟩ := rfl

lemma filesToQrc_cons (ov : List String) (reg : List String) (f : String)
    (fs : List String) (d : String) (loc : Bool) :
    filesToQrc ov reg (f :: fs) d loc =
      ⟨(processFile ov loc d reg f).out
         ++ (filesToQrc ov (processFile ov loc d reg f).reg fs d loc).out,
       (processFile ov loc d reg f).entries
         ++ (filesToQrc ov (processFile ov loc d reg f).reg fs d loc).entries,
       (filesToQrc ov (processFile ov loc d reg f).reg fs d loc).reg⟩ := rfl

lemma nonOvNames_cons_ov {e : Entry} {es : List Entry} (h : e.isOverride = true) :
    nonOvNames (e :: es) = nonOvNames es := by
  simp [nonOvNames, h]

lemma nonOvNames_cons_plain {e : Entry} {es : List Entry} (h : e.isOverride = false) :
    nonOvNames (e :: es) = e.name :: nonOvNames es := by
  simp [nonOvNames, h]

/-- The registry returned by `filesToQrc` is the input registry followed by
the stems of the non-override entries it wrote, in order. -/
lemma filesToQrc_reg (ov : List String) (d : String) (loc : Bool) :
    ∀ (fs reg : List String),
      (filesToQrc ov reg fs d loc).reg
        = reg ++ nonOvNames (filesToQrc ov reg fs d loc).entries := by
  intro fs
  induction fs with
  | nil => intro reg; rw [filesToQrc_nil]; simp [nonOvNames_nil]
  | cons f fs ih =>
    intro reg
    rw [filesToQrc_cons]
    dsimp only
    rcases processFile_cases ov loc d reg f with h | ⟨e, he, -, -, -, -, -, -, -⟩
    · rw [h]
      dsimp only
      rw [List.nil_append]
      exact ih reg
    · rw [he]
      dsimp only
      cases hio : e.isOverride with
      | true =>
        rw [if_pos rfl, nonOvNames_append, nonOvNames_cons_ov hio, nonOvNames_nil,
          List.nil_append]
        exact ih reg
      | false =>
        rw [if_neg (by simp [hio]), nonOvNames_append, nonOvNames_cons_plain hio,
          nonOvNames_nil]
        rw [ih (reg ++ [e.name])]
        simp

/-- Every entry `filesToQrc` writes comes from a file of the input listing,
carries the directory-joined path, has a `.qm` extension and an allowed
component, and is aliased by its own filename — marker-prefixed exactly when
it is an override, which requires membership in the override list and the
local-translation pass. -/
lemma filesToQrc_mem (ov : List String) (d : String) (loc : Bool) :
    ∀ (fs reg : List String) (e : Entry),
      e ∈ (filesToQrc ov reg fs d loc).entries →
      e.fileName ∈ fs ∧ e.path = pyJoin d e.fileName ∧
      e.name = (pySplitext e.fileName).1 ∧ (pySplitext e.fileName).2 = ".qm" ∧
      getComponentName e.fileName ∈ allowed_components ∧
      (e.isOverride = false → e.fileAlias = e.fileName) ∧
      (e.isOverride = true →
        e.fileAlias = ovMarker ++ e.fileName ∧ e.fileName ∈ ov ∧ loc = true) := by
  intro fs
  induction fs with
  | nil =>
    intro reg e h
    rw [filesToQrc_nil] at h
    cases h
  | cons f fs ih =>
    intro reg e hmem
    rw [filesToQrc_cons] at hmem
    dsimp only at hmem
    rcases processFile_cases ov loc d reg f with h | ⟨e', he', hfn, hnm, hpath, hqm, hcomp, hno, hov⟩
    · rw [h] at hmem
      dsimp only at hmem
      rw [List.nil_append] at hmem
      obtain ⟨h1, h2, h3, h4, h5, h6, h7⟩ := ih _ e hmem
      exact ⟨List.mem_cons_of_mem _ h1, h2, h3, h4, h5, h6, h7⟩
    · rw [he'] at hmem
      dsimp only at hmem
      rcases List.mem_append.mp hmem with h1 | h2
      · cases List.mem_singleton.mp h1
        subst hfn
        exact ⟨List.mem_cons_self _ _, hpath, hnm, hqm, hcomp,
          fun h => (hno h).1, fun h => hov h⟩
      · obtain ⟨h1, h2', h3, h4, h5, h6, h7⟩ := ih _ e h2
        exact ⟨List.mem_cons_of_mem _ h1, h2', h3, h4, h5, h6, h7⟩

/-- A non-override entry's stem was not in the registry `filesToQrc` started
from. -/
lemma filesToQrc_fresh (ov : List String) (d : String) (loc : Bool) :
    ∀ (fs reg : List String) (e : Entry),
      e ∈ (filesToQrc ov reg fs d loc).entries → e.isOverride = false →
      e.name ∉ reg := by
  intro fs
  induction fs with
  | nil =>
    intro reg e h
    rw [filesToQrc_nil] at h
    cases h
  | cons f fs ih =>
    intro reg e hmem hio
    rw [filesToQrc_cons] at hmem
    dsimp only at hmem
    rcases processFile_cases ov loc d reg f with h | ⟨e', he', hfn, hnm, hpath, hqm, hcomp, hno, hov⟩
    · rw [h] at hmem
      dsimp only at hmem
      rw [List.nil_append] at hmem
      exact ih reg e hmem hio
    · rw [he'] at hmem
      dsimp only at hmem
      rcases List.mem_append.mp hmem with h1 | h2
      · cases List.mem_singleton.mp h1
        exact (hno hio).2
      · intro hin
        have hin' : e.name ∈ (if e'.isOverride then reg else reg ++ [e'.name]) := by
          cases e'.isOverride <;> simp [hin]
        exact ih _ e h2 hio hin'

/-- The stems of the non-override entries of one `filesToQrc` call are
pairwise distinct. -/
lemma filesToQrc_nodup (ov : List String) (d : String) (loc : Bool) :
    ∀ (fs reg : List String),
      (nonOvNames (filesToQrc ov reg fs d loc).entries).Nodup := by
  intro fs
  induction fs with
  | nil => intro reg; rw [filesToQrc_nil]; simp [nonOvNames_nil]
  | cons f fs ih =>
    intro reg
    rw [filesToQrc_cons]
    dsimp only
    rcases processFile_cases ov loc d reg f with h | ⟨e', he', hfn, hnm, hpath, hqm, hcomp, hno, hov⟩
    · rw [h]
      dsimp only
      rw [List.nil_append]
      exact ih reg
    · rw [he']
      dsimp only
      cases hio : e'.isOverride with
      | true =>
        rw [if_pos rfl, nonOvNames_append, nonOvNames_cons_ov hio, nonOvNames_nil,
          List.nil_append]
        exact ih reg
      | false =>
        rw [if_neg (by simp [hio]), nonOvNames_append, nonOvNames_cons_plain hio,
          nonOvNames_nil, List.singleton_append]
        refine List.nodup_cons.mpr ⟨?_, ih _⟩
        intro hmem'
        obtain ⟨e2, he2mem, he2ov, he2name⟩ := mem_nonOvNames.mp hmem'
        have hfr := filesToQrc_fresh ov d loc fs _ e2 he2mem he2ov
        rw [he2name] at hfr
        exact hfr (List.mem_append_right reg (List.mem_singleton.mpr rfl))

/-- The filenames bundled by one `filesToQrc` call form an order-preserving
sublist of the input listing. -/
lemma filesToQrc_sublist (ov : List String) (d : String) (loc : Bool) :
    ∀ (fs reg : List String),
      List.Sublist ((filesToQrc ov reg fs d loc).entries.map Entry.fileName) fs := by
  intro fs
  induction fs with
  | nil => intro reg; rw [filesToQrc_nil]; simp
  | cons f fs ih =>
    intro reg
    rw [filesToQrc_cons]
    dsimp only
    rcases processFile_cases ov loc d reg f with h | ⟨e', he', hfn, hnm, hpath, hqm, hcomp, hno, hov⟩
    · rw [h]
      dsimp only
      rw [List.nil_append]
      exact (ih _).cons f
    · rw [he']
      dsimp only
      rw [List.singleton_append, List.map_cons, hfn]
      exact (ih _).cons₂ f

/-- The text `filesToQrc` writes is exactly the concatenation of the XML
lines of the entries it produced, in order. -/
lemma filesToQrc_out (ov : List String) (d : String) (loc : Bool) :
    ∀ (fs reg : List String),
      (filesToQrc ov reg fs d loc).out
        = strJoin ((filesToQrc ov reg fs d loc).entries.map entryLine) := by
  intro fs
  induction fs with
  | nil => intro reg; rfl
  | cons f fs ih =>
    intro reg
    rw [filesToQrc_cons]
    dsimp only
    rcases processFile_cases ov loc d reg f with h | ⟨e', he', hfn, hnm, hpath, hqm, hcomp, hno, hov⟩
    · rw [h]
      dsimp only
      rw [List.nil_append]
      exact ih _
    · rw [he']
      dsimp only
      rw [List.singleton_append, List.map_cons]
      show entryLine e' ++ _ = entryLine e' ++ _
      exact congrArg (fun x => entryLine e' ++ x) (ih _)

/-- Every listed `.qm` file with an allowed component and a stem absent from
the starting registry is bundled, with the directory-joined path — no
file-system existence enters the decision. -/
lemma filesToQrc_bundles (ov : List String) (d : String) (loc : Bool) :
    ∀ (fs reg : List String) (f : String), f ∈ fs → (pySplitext f).2 = ".qm" →
      getComponentName f ∈ allowed_components → (pySplitext f).1 ∉ reg →
      ∃ e ∈ (filesToQrc ov reg fs d loc).entries,
        e.fileName = f ∧ e.path = pyJoin d f := by
  intro fs
  induction fs with
  | nil => intro reg f h; cases h
  | cons g fs ih =>
    intro reg f hf hqm hcomp hfresh
    rw [filesToQrc_cons]
    dsimp only
    by_cases hgf : g = f
    · subst hgf
      by_cases hob : (decide (g ∈ ov) && loc) = false
      · rw [processFile_plain ov loc d reg g hob hqm hcomp hfresh]
        dsimp only
        exact ⟨⟨g, pyJoin d g, g, (pySplitext g).1, false⟩, by simp, rfl, rfl⟩
      · have hoT : (decide (g ∈ ov) && loc) = true := by
          cases hbb : (decide (g ∈ ov) && loc) with
          | false => exact absurd hbb hob
          | true => rfl
        have hparts : decide (g ∈ ov) = true ∧ loc = true := by simpa using hoT
        obtain ⟨hdov, hloc⟩ := hparts
        subst hloc
        rw [processFile_override ov d reg g (of_decide_eq_true hdov) hqm hcomp]
        dsimp only
        exact ⟨⟨ovMarker ++ g, pyJoin d g, g, (pySplitext g).1, true⟩, by simp, rfl, rfl⟩
    · have hf' : f ∈ fs := by
        rcases List.mem_cons.mp hf with h | h
        · exact absurd h.symm hgf
        · exact h
      rcases processFile_cases ov loc d reg g with h | ⟨e', he', hfn, hnm, hpath, hqm', hcomp', hno, hov⟩
      · rw [h]
        dsimp only
        obtain ⟨e, hmem, h1, h2⟩ := ih reg f hf' hqm hcomp hfresh
        exact ⟨e, List.mem_append_right _ hmem, h1, h2⟩
      · rw [he']
        dsimp only
        have hfresh' : (pySplitext f).1 ∉ (if e'.isOverride then reg else reg ++ [e'.name]) := by
          cases hio : e'.isOverride with
          | true =>
            rw [if_pos rfl]
            exact hfresh
          | false =>
            rw [if_neg (by simp [hio])]
            intro hmem2
            rcases List.mem_append.mp hmem2 with h1 | h1
            · exact hfresh h1
            · have heq : (pySplitext f).1 = (pySplitext g).1 := by
                rw [List.mem_singleton.mp h1, hnm]
              exact hgf (eq_of_stem_ext heq (by rw [hqm, hqm'])).symm
        obtain ⟨e, hmem, h1, h2⟩ := ih _ f hf' hqm hcomp hfresh'
        exact ⟨e, List.mem_append_right _ hmem, h1, h2⟩

/-- During the local pass, a listed `.qm` file with an allowed component that
is in the override list is always bundled — the registry skip check is
bypassed for overrides, so no freshness condition is needed. -/
lemma filesToQrc_bundles_ov (ov : List String) (d : String) :
    ∀ (fs reg : List String) (f : String), f ∈ fs → (pySplitext f).2 = ".qm" →
      getComponentName f ∈ allowed_components → f ∈ ov →
      ∃ e ∈ (filesToQrc ov reg fs d true).entries,
        e.fileName = f ∧ e.path = pyJoin d f := by
  intro fs
  induction fs with
  | nil => intro reg f h; cases h
  | cons g fs ih =>
    intro reg f hf hqm hcomp hov
    rw [filesToQrc_cons]
    dsimp only
    by_cases hgf : g = f
    · subst hgf
      rw [processFile_override ov d reg g hov hqm hcomp]
      dsimp only
      exact ⟨⟨ovMarker ++ g, pyJoin d g, g, (pySplitext g).1, true⟩, by simp, rfl, rfl⟩
    · have hf' : f ∈ fs := by
        rcases List.mem_cons.mp hf with h | h
        · exact absurd h.symm hgf
        · exact h
      obtain ⟨e, hmem, h1, h2⟩ := ih _ f hf' hqm hcomp hov
      exact ⟨e, List.mem_append_right _ hmem, h1, h2⟩

lemma processDirs_nil (ov reg : List String) : processDirs ov reg [] = ⟨"", [], reg⟩ := rfl

lemma processDirs_cons (ov reg : List String) (d : DirInput) (ds : List DirInput) :
    processDirs ov reg (d :: ds) =
      ⟨(filesToQrc ov reg d.listing d.path false).out
         ++ (processDirs ov ((filesToQrc ov reg d.listing d.path false).reg
              ++ (filesToQrc ov reg d.listing d.path false).reg) ds).out,
       (filesToQrc ov reg d.listing d.path false).entries
         ++ (processDirs ov ((filesToQrc ov reg d.listing d.path false).reg
              ++ (filesToQrc ov reg d.listing d.path false).reg) ds).entries,
       (processDirs ov ((filesToQrc ov reg d.listing d.path false).reg
          ++ (filesToQrc ov reg d.listing d.path false).reg) ds).reg⟩ := rfl

/-- The text written while processing the external directories is the
concatenation of the lines of the entries produced, in order. -/
lemma processDirs_out : ∀ (ds : List DirInput) (ov reg : List String),
    (processDirs ov reg ds).out
      = strJoin ((processDirs ov reg ds).entries.map entryLine) := by
  intro ds
  induction ds with
  | nil => intro ov reg; rfl
  | cons d ds ih =>
    intro ov reg
    rw [processDirs_cons]
    dsimp only
    rw [List.map_append, strJoin_append, filesToQrc_out, ih]

/-- Registry membership after the directory loop: a stem is in the registry
iff it was there initially or a non-override entry with that stem was
written — the in-place-mutation-plus-extend duplication changes counts, never
membership. -/
lemma processDirs_reg_mem : ∀ (ds : List DirInput) (ov reg : List String) (s : String),
    s ∈ (processDirs ov reg ds).reg ↔
      s ∈ reg ∨ s ∈ nonOvNames (processDirs ov reg ds).entries := by
  intro ds
  induction ds with
  | nil => intro ov reg s; rw [processDirs_nil]; simp [nonOvNames_nil]
  | cons d ds ih =>
    intro ov reg s
    rw [processDirs_cons]
    dsimp only
    rw [ih, nonOvNames_append]
    have hr : ∀ t : String, t ∈ (filesToQrc ov reg d.listing d.path false).reg ↔
        t ∈ reg ∨ t ∈ nonOvNames (filesToQrc ov reg d.listing d.path false).entries := by
      intro t
      rw [filesToQrc_reg ov d.path false d.listing reg]
      exact List.mem_append
    simp only [List.mem_append, hr s]
    tauto

lemma processDirs_fresh : ∀ (ds : List DirInput) (ov reg : List String) (e : Entry),
    e ∈ (processDirs ov reg ds).entries → e.isOverride = false → e.name ∉ reg := by
  intro ds
  induction ds with
  | nil => intro ov reg e h; rw [processDirs_nil] at h; cases h
  | cons d ds ih =>
    intro ov reg e hmem hio hin
    rw [processDirs_cons] at hmem
    dsimp only at hmem
    rcases List.mem_append.mp hmem with h1 | h2
    · exact filesToQrc_fresh ov d.path false d.listing reg e h1 hio hin
    · exact ih ov _ e h2 hio (List.mem_append_left _
        (by rw [filesToQrc_reg]; exact List.mem_append_left _ hin))

lemma processDirs_nodup : ∀ (ds : List DirInput) (ov reg : List String),
    (nonOvNames (processDirs ov reg ds).entries).Nodup := by
  intro ds
  induction ds with
  | nil => intro ov reg; rw [processDirs_nil]; simp [nonOvNames_nil]
  | cons d ds ih =>
    intro ov reg
    rw [processDirs_cons]
    dsimp only
    rw [nonOvNames_append]
    refine List.Nodup.append (filesToQrc_nodup ov d.path false d.listing reg) (ih ov _) ?_
    intro s hs1 hs2
    obtain ⟨e2, he2mem, he2ov, he2nm⟩ := mem_nonOvNames.mp hs2
    have hfr := processDirs_fresh ds ov _ e2 he2mem he2ov
    apply hfr
    rw [he2nm]
    exact List.mem_append_left _
      (by rw [filesToQrc_reg]; exact List.mem_append_right _ hs1)

/-- After at least one external directory, every member of the registry list
occurs at least twice in it: the loop extends the registry with the very list
`filesToQrc` mutated in place and returned, doubling it after every
directory. -/
lemma processDirs_count_two : ∀ (ds : List DirInput) (ov reg : List String), ds ≠ [] →
    ∀ s ∈ (processDirs ov reg ds).reg, 2 ≤ (processDirs ov reg ds).reg.count s := by
  intro ds
  induction ds with
  | nil => intro ov reg h; exact absurd rfl h
  | cons d ds ih =>
    intro ov reg _ s hs
    cases ds with
    | nil =>
      rw [processDirs_cons, processDirs_nil] at hs ⊢
      dsimp only at hs ⊢
      rw [List.count_append]
      have hmem : s ∈ (filesToQrc ov reg d.listing d.path false).reg := by
        rcases List.mem_append.mp hs with h | h <;> exact h
      have hc : 0 < (filesToQrc ov reg d.listing d.path false).reg.count s :=
        List.count_pos_iff.mpr hmem
      omega
    | cons d2 ds2 =>
      rw [processDirs_cons] at hs ⊢
      dsimp only at hs ⊢
      exact ih ov _ (by simp) s hs

/-- Every entry emitted during the external-directory loop comes from some
scanned directory's listing, is path-joined to that directory, passed the
extension and allow-list checks, and — the pass not being the local one — is
never an override, so it is aliased by its own filename. -/
lemma processDirs_mem : ∀ (ds : List DirInput) (ov reg : List String) (e : Entry),
    e ∈ (processDirs ov reg ds).entries →
    (∃ dI ∈ ds, e.fileName ∈ dI.listing ∧ e.path = pyJoin dI.path e.fileName) ∧
    (pySplitext e.fileName).2 = ".qm" ∧
    getComponentName e.fileName ∈ allowed_components ∧
    e.isOverride = false ∧ e.fileAlias = e.fileName := by
  intro ds
  induction ds with
  | nil => intro ov reg e h; rw [processDirs_nil] at h; cases h
  | cons d ds ih =>
    intro ov reg e hmem
    rw [processDirs_cons] at hmem
    dsimp only at hmem
    rcases List.mem_append.mp hmem with h1 | h2
    · obtain ⟨hf, hp, hn, hq, hcp, hpl, hovr⟩ :=
        filesToQrc_mem ov d.path false d.listing reg e h1
      have hio : e.isOverride = false := by
        cases hb : e.isOverride with
        | false => rfl
        | true => exact absurd (hovr hb).2.2 (by simp)
      exact ⟨⟨d, List.mem_cons_self _ _, hf, hp⟩, hq, hcp, hio, hpl hio⟩
    · obtain ⟨⟨dI, hdm, h1a, h1b⟩, h3, h4, h5, h6⟩ := ih ov _ e h2
      exact ⟨⟨dI, List.mem_cons_of_mem _ hdm, h1a, h1b⟩, h3, h4, h5, h6⟩

/-! ### The override marker never collides with a bundled filename -/

lemma component_take_two {f : String} (h : getComponentName f ∈ allowed_components) :
    f.data.take 2 = ['q', 't'] := by
  have hp := getComponentName_prefix_self f
  have h' : getComponentName f = "qt" ∨ getComponentName f = "qtbase" := by
    simpa [allowed_components] using h
  rcases h' with h' | h' <;> rw [h'] at hp <;> obtain ⟨t, ht⟩ := hp <;> rw [← ht] <;> rfl

lemma not_marker_of_qt {f : String} (h : getComponentName f ∈ allowed_components) :
    pyStartsWith f ovMarker = false := by
  have h2 := component_take_two h
  unfold pyStartsWith
  apply decide_eq_false
  intro heq
  have h3 := congrArg (List.take 2) heq
  rw [List.take_take] at h3
  have hmin : min 2 ovMarker.data.length = 2 := by decide
  rw [hmin, h2] at h3
  exact (by decide : ¬(['q', 't'] = ovMarker.data.take 2)) h3

lemma stripMarker_of_qt {f : String} (h : getComponentName f ∈ allowed_components) :
    stripMarker f = f := by
  unfold stripMarker
  rw [not_marker_of_qt h]
  simp

lemma pyStartsWith_marker_append (f : String) :
    pyStartsWith (ovMarker ++ f) ovMarker = true := by
  unfold pyStartsWith
  apply decide_eq_true
  rw [data_append]
  exact List.take_left _ _

lemma stripMarker_marker_append (f : String) : stripMarker (ovMarker ++ f) = f := by
  unfold stripMarker
  rw [pyStartsWith_marker_append, if_pos rfl]
  apply string_data_inj
  show (ovMarker ++ f).data.drop ovMarker.data.length = f.data
  rw [data_append]
  exact List.drop_left _ _

/-- Stripping the override marker from an entry's alias recovers the source
filename, for entries whose component passed the allow-list (such filenames
begin with `qt`, so they never begin with the marker). -/
lemma stripMarker_alias {e : Entry}
    (hcomp : getComponentName e.fileName ∈ allowed_components)
    (hplain : e.isOverride = false → e.fileAlias = e.fileName)
    (hov : e.isOverride = true → e.fileAlias = ovMarker ++ e.fileName) :
    stripMarker e.fileAlias = e.fileName := by
  cases hb : e.isOverride with
  | false => rw [hplain hb]; exact stripMarker_of_qt hcomp
  | true => rw [hov hb]; exact stripMarker_marker_append _

/-! ### Runs of `main` -/

lemma runMain_ok (cfg : Option (List String)) (dirs : List DirInput) (ld : String)
    (acc : ConfigAcc) (h : configOf cfg = .ok acc) :
    runMain cfg dirs ld = .ok (runBuild acc dirs ld) := by
  unfold runMain
  rw [h]

lemma runMain_ok_inv (cfg : Option (List String)) (dirs : List DirInput)
    (ld : String) (r : RunResult) (h : runMain cfg dirs ld = .ok r) :
    ∃ acc, configOf cfg = .ok acc ∧ r = runBuild acc dirs ld := by
  unfold runMain at h
  cases hq : configOf cfg with
  | error e =>
    simp only [hq] at h
    exact Except.noConfusion h
  | ok acc =>
    simp only [hq] at h
    exact ⟨acc, rfl, (Except.ok.inj h).symm⟩

/-! ### Claims C1, C6, C7, C8, C9, C10 -/

/-- Claim C1: per run, a stem yields at most one non-override manifest entry
(the stems of non-override entries are pairwise distinct); a filename whose
stem is already registered is skipped — output, entries and registry all
unchanged — unless it is in the override list AND the invocation is the
local-translation pass, in which case a second entry with the
`mumble_overwrite_` alias marker is written and the registry is not
updated. -/
theorem c1_stem_dedup_and_override :
    (∀ (cfg : Option (List String)) (dirs : List DirInput) (ld : String)
       (r : RunResult), runMain cfg dirs ld = .ok r →
       (nonOvNames r.entries).Nodup) ∧
    (∀ (ov : List String) (loc : Bool) (d : String) (reg : List String)
       (f : String), (pySplitext f).1 ∈ reg → ¬ (f ∈ ov ∧ loc = true) →
       processFile ov loc d reg f = ⟨"", [], reg⟩) ∧
    (∀ (ov : List String) (d : String) (reg : List String) (f : String),
       (pySplitext f).1 ∈ reg → f ∈ ov → (pySplitext f).2 = ".qm" →
       getComponentName f ∈ allowed_components →
       (processFile ov true d reg f).entries
           = [⟨ovMarker ++ f, pyJoin d f, f, (pySplitext f).1, true⟩] ∧
       (processFile ov true d reg f).reg = reg) := by
  refine ⟨?_, ?_, ?_⟩
  · intro cfg dirs ld r h
    obtain ⟨acc, hacc, hr⟩ := runMain_ok_inv cfg dirs ld r h
    subst hr
    unfold runBuild
    dsimp only
    rw [nonOvNames_append]
    refine List.Nodup.append (processDirs_nodup dirs acc.override_qt [])
      (filesToQrc_nodup _ _ _ _ _) ?_
    intro s hs1 hs2
    obtain ⟨e2, he2mem, he2ov, he2nm⟩ := mem_nonOvNames.mp hs2
    have hfr := filesToQrc_fresh acc.override_qt ld true acc.local_qt_translations
      (processDirs acc.override_qt [] dirs).reg e2 he2mem he2ov
    apply hfr
    rw [he2nm]
    exact (processDirs_reg_mem dirs acc.override_qt [] s).mpr (Or.inr hs1)
  · intro ov loc d reg f h1 h2
    exact processFile_skip_of_mem ov loc d reg f h1 h2
  · intro ov d reg f h1 h2 h3 h4
    rw [processFile_override ov d reg f h2 h3 h4]
    exact ⟨rfl, rfl⟩

/-- Concrete instance of `c1_stem_dedup_and_override`: during the local pass,
`qt_de.qm` with its stem already registered but listed as an override is
bundled again under the marker alias, and the registry stays `["qt_de"]`. -/
theorem c1_witness :
    (pySplitext "qt_de.qm").1 ∈ (["qt_de"] : List String) ∧
    (processFile ["qt_de.qm"] true "/loc" ["qt_de"] "qt_de.qm").entries
        = [⟨ovMarker ++ "qt_de.qm", pyJoin "/loc" "qt_de.qm", "qt_de.qm",
            (pySplitext "qt_de.qm").1, true⟩] ∧
    (processFile ["qt_de.qm"] true "/loc" ["qt_de"] "qt_de.qm").reg = ["qt_de"] :=
  ⟨by decide,
   (c1_stem_dedup_and_override.2.2 ["qt_de.qm"] "/loc" ["qt_de"] "qt_de.qm"
      (by decide) (by decide) (by decide) (by decide)).1,
   (c1_stem_dedup_and_override.2.2 ["qt_de.qm"] "/loc" ["qt_de"] "qt_de.qm"
      (by decide) (by decide) (by decide) (by decide)).2⟩

/-- Claim C6 is refuted: with one scanned directory `/ext` holding only
`qt_de.qm` and a local directory that is empty on disk but whose config
declares `qt_xx.ts`, the run emits an entry aliased `qt_xx.qm` — the local
pass iterates the config-derived list, never a disk listing, so the stripped
alias matches no file present in any scanned directory. -/
theorem c6_counterexample :
    ∃ r : RunResult,
      runMain (some ["fallback qt_xx.ts"]) [⟨"/ext", ["qt_de.qm"]⟩] "/loc"
          = .ok r ∧
      ∃ e ∈ r.entries, stripMarker e.fileAlias ∉ (["qt_de.qm"] : List String) := by
  refine ⟨runBuild ⟨["qt_xx.qm"], []⟩ [⟨"/ext", ["qt_de.qm"]⟩] "/loc", rfl, ?_⟩
  exact ⟨⟨"qt_xx.qm", "/loc/qt_xx.qm", "qt_xx.qm", "qt_xx", false⟩,
    by decide, by decide⟩

/-- Claim C6 as amended: every manifest alias, with the override marker
stripped if present, matches a file present in one of the scanned external
directories or a filename declared in the local-translations config list
(bundled whether or not present on disk). -/
theorem c6_alias_roundtrip (cfg : Option (List String)) (dirs : List DirInput)
    (ld : String) (acc : ConfigAcc) (r : RunResult)
    (hacc : configOf cfg = .ok acc) (hrun : runMain cfg dirs ld = .ok r) :
    ∀ e ∈ r.entries,
      stripMarker e.fileAlias ∈ (dirs.map DirInput.listing).flatten
        ∨ stripMarker e.fileAlias ∈ acc.local_qt_translations := by
  intro e hmem
  obtain ⟨acc', hacc', hr⟩ := runMain_ok_inv cfg dirs ld r hrun
  rw [hacc] at hacc'
  cases Except.ok.inj hacc'
  subst hr
  unfold runBuild at hmem
  dsimp only at hmem
  rcases List.mem_append.mp hmem with h1 | h2
  · obtain ⟨⟨dI, hdm, hfl, hfp⟩, hq, hcp, hio, hal⟩ :=
      processDirs_mem dirs _ [] e h1
    left
    have hst : stripMarker e.fileAlias = e.fileName := by
      rw [hal]
      exact stripMarker_of_qt hcp
    rw [hst]
    exact List.mem_flatten.mpr ⟨dI.listing, List.mem_map.mpr ⟨dI, hdm, rfl⟩, hfl⟩
  · obtain ⟨hf, hp, hn, hq, hcp, hpl, hovr⟩ := filesToQrc_mem _ ld true _ _ e h2
    right
    have hst : stripMarker e.fileAlias = e.fileName :=
      stripMarker_alias hcp hpl (fun hb => (hovr hb).1)
    rw [hst]
    exact hf

/-- Concrete instance of `c6_alias_roundtrip`: the single entry of a
config-less run over `/qt` containing `qtbase_fr.qm`. -/
theorem c6_witness :
    stripMarker (Entry.mk "qtbase_fr.qm" "/qt/qtbase_fr.qm" "qtbase_fr.qm"
        "qtbase_fr" false).fileAlias
        ∈ (([⟨"/qt", ["qtbase_fr.qm"]⟩] : List DirInput).map DirInput.listing).flatten
      ∨ stripMarker (Entry.mk "qtbase_fr.qm" "/qt/qtbase_fr.qm" "qtbase_fr.qm"
        "qtbase_fr" false).fileAlias
        ∈ (ConfigAcc.mk [] []).local_qt_translations :=
  c6_alias_roundtrip none [⟨"/qt", ["qtbase_fr.qm"]⟩] "/l" ⟨[], []⟩
    (runBuild ⟨[], []⟩ [⟨"/qt", ["qtbase_fr.qm"]⟩] "/l") rfl rfl
    ⟨"qtbase_fr.qm", "/qt/qtbase_fr.qm", "qtbase_fr.qm", "qtbase_fr", false⟩
    (by decide)

/-- Claim C7: the run's entries are the external-directory entries followed by
the local-pass entries (the local pass is always last); the directory loop
emits each command-line directory's entries in order before the next
directory's; and within one directory the bundled filenames form an
order-preserving sublist of the directory listing. -/
theorem c7_emission_order :
    (∀ (cfg : Option (List String)) (dirs : List DirInput) (ld : String)
       (acc : ConfigAcc) (r : RunResult),
       configOf cfg = .ok acc → runMain cfg dirs ld = .ok r →
       r.entries = (processDirs acc.override_qt [] dirs).entries ++
         (filesToQrc acc.override_qt (processDirs acc.override_qt [] dirs).reg
            acc.local_qt_translations ld true).entries) ∧
    (∀ (ov reg : List String) (d : DirInput) (ds : List DirInput),
       (processDirs ov reg (d :: ds)).entries
         = (filesToQrc ov reg d.listing d.path false).entries ++
           (processDirs ov ((filesToQrc ov reg d.listing d.path false).reg
              ++ (filesToQrc ov reg d.listing d.path false).reg) ds).entries) ∧
    (∀ (ov reg fs : List String) (d : String) (loc : Bool),
       List.Sublist ((filesToQrc ov reg fs d loc).entries.map Entry.fileName) fs) := by
  refine ⟨?_, ?_, ?_⟩
  · intro cfg dirs ld acc r hacc hrun
    obtain ⟨acc', hacc', hr⟩ := runMain_ok_inv _ _ _ _ hrun
    rw [hacc] at hacc'
    cases Except.ok.inj hacc'
    subst hr
    rfl
  · intro ov reg d ds
    rw [processDirs_cons]
  · intro ov reg fs d loc
    exact filesToQrc_sublist ov d loc fs reg

/-- Concrete instance of `c7_emission_order`: one external directory plus one
declared local translation decompose as external entries then local
entries. -/
theorem c7_witness :
    (runBuild ⟨["qt_pl.qm"], []⟩ [⟨"/d1", ["qt_it.qm"]⟩] "/lo").entries
      = (processDirs [] [] [⟨"/d1", ["qt_it.qm"]⟩]).entries ++
        (filesToQrc [] (processDirs [] [] [⟨"/d1", ["qt_it.qm"]⟩]).reg
           ["qt_pl.qm"] "/lo" true).entries :=
  c7_emission_order.1 (some ["fallback qt_pl.ts"]) [⟨"/d1", ["qt_it.qm"]⟩] "/lo"
    ⟨["qt_pl.qm"], []⟩ _ rfl rfl

/-- Claim C8: on success the output text is exactly the fixed envelope —
doctype/`RCC` header line, one `qresource` element — containing one
` <file alias="...">path</file>` line per bundled translation in emission
order, followed by the fixed closing tags. -/
theorem c8_output_envelope (cfg : Option (List String)) (dirs : List DirInput)
    (ld : String) (r : RunResult) (hrun : runMain cfg dirs ld = .ok r) :
    r.out = "<!DOCTYPE RCC><RCC version=\"1.0\">\n" ++ "<qresource>\n"
      ++ strJoin (r.entries.map entryLine) ++ "</qresource>\n" ++ "</RCC>\n" := by
  obtain ⟨acc, hacc, hr⟩ := runMain_ok_inv _ _ _ _ hrun
  subst hr
  unfold runBuild
  dsimp only
  rw [List.map_append, strJoin_append, processDirs_out, filesToQrc_out]

/-- Concrete instance of `c8_output_envelope` at an empty run. -/
theorem c8_witness :
    (runBuild ⟨[], []⟩ [] "/l").out
      = "<!DOCTYPE RCC><RCC version=\"1.0\">\n" ++ "<qresource>\n"
        ++ strJoin ((runBuild ⟨[], []⟩ [] "/l").entries.map entryLine)
        ++ "</qresource>\n" ++ "</RCC>\n" :=
  c8_output_envelope none [] "/l" _ rfl

/-- Claim C9's universal "a declared filename is bundled" is refuted: a config
declaring only `mumble_de.ts` yields the local list `["mumble_de.qm"]`, whose
component `mumble` is outside the allow-list, so the run bundles nothing at
all. -/
theorem c9_counterexample :
    configOf (some ["fallback mumble_de.ts"]) = .ok ⟨["mumble_de.qm"], []⟩ ∧
    runMain (some ["fallback mumble_de.ts"]) [] "/loc" =
      .ok ⟨"<!DOCTYPE RCC><RCC version=\"1.0\">\n<qresource>\n</qresource>\n</RCC>\n",
           []⟩ :=
  ⟨rfl, rfl⟩

/-- Claim C9 as amended: the local pass iterates the config-derived list (the
run model takes no local disk listing at all): every local-pass entry's source
filename is a declared filename, path-joined to the local directory; and a
declared filename that passes the extension and allow-list checks and either
has a fresh stem or is an override (in the override list during the local
pass, which bypasses the registry skip check) is bundled with the
directory-joined path — file-system existence never enters. -/
theorem c9_local_pass_uses_config :
    (∀ (cfg : Option (List String)) (dirs : List DirInput) (ld : String)
       (acc : ConfigAcc) (r : RunResult),
       configOf cfg = .ok acc → runMain cfg dirs ld = .ok r →
       r.entries = (processDirs acc.override_qt [] dirs).entries ++
         (filesToQrc acc.override_qt (processDirs acc.override_qt [] dirs).reg
            acc.local_qt_translations ld true).entries) ∧
    (∀ (ov reg fs : List String) (d : String) (loc : Bool) (e : Entry),
       e ∈ (filesToQrc ov reg fs d loc).entries →
       e.fileName ∈ fs ∧ e.path = pyJoin d e.fileName) ∧
    (∀ (ov reg fs : List String) (d : String) (loc : Bool) (f : String),
       f ∈ fs → (pySplitext f).2 = ".qm" →
       getComponentName f ∈ allowed_components →
       ((pySplitext f).1 ∉ reg ∨ (f ∈ ov ∧ loc = true)) →
       ∃ e ∈ (filesToQrc ov reg fs d loc).entries,
         e.fileName = f ∧ e.path = pyJoin d f) := by
  refine ⟨?_, ?_, ?_⟩
  · intro cfg dirs ld acc r hacc hrun
    obtain ⟨acc', hacc', hr⟩ := runMain_ok_inv _ _ _ _ hrun
    rw [hacc] at hacc'
    cases Except.ok.inj hacc'
    subst hr
    rfl
  · intro ov reg fs d loc e hmem
    obtain ⟨h1, h2, -, -, -, -, -⟩ := filesToQrc_mem ov d loc fs reg e hmem
    exact ⟨h1, h2⟩
  · intro ov reg fs d loc f hf hqm hcomp hok
    rcases hok with hfresh | ⟨hov, hloc⟩
    · exact filesToQrc_bundles ov d loc fs reg f hf hqm hcomp hfresh
    · subst hloc
      exact filesToQrc_bundles_ov ov d fs reg f hf hqm hcomp hov

/-- Concrete instance of `c9_local_pass_uses_config`, exercising the
override case: `qt_ro.qm` is declared as an override and its stem `qt_ro` is
already registered, yet it is bundled from the local directory — with no disk
listing in sight. -/
theorem c9_witness :
    ∃ e ∈ (filesToQrc ["qt_ro.qm"] ["qt_ro"] ["qt_ro.qm"] "/lcl" true).entries,
      e.fileName = "qt_ro.qm" ∧ e.path = pyJoin "/lcl" "qt_ro.qm" :=
  c9_local_pass_uses_config.2.2 ["qt_ro.qm"] ["qt_ro"] ["qt_ro.qm"] "/lcl" true
    "qt_ro.qm" (by decide) (by decide) (by decide) (Or.inr ⟨by decide, rfl⟩)

/-- Claim C10's "each stem bundled from an external directory occurs twice in
the registry list" is refuted: after the second directory the registry has
doubled again, so the stem from the first directory occurs four times. -/
theorem c10_counterexample :
    "qt_de" ∈ nonOvNames
      (processDirs [] [] [⟨"/a", ["qt_de.qm"]⟩, ⟨"/b", ["qtbase_fr.qm"]⟩]).entries ∧
    (processDirs [] [] [⟨"/a", ["qt_de.qm"]⟩, ⟨"/b", ["qtbase_fr.qm"]⟩]).reg.count
      "qt_de" = 4 :=
  ⟨by decide, by decide⟩

/-- Claim C10 as amended: at every step (each `filesToQrc` call and each
directory-loop step), a stem is a member of the registry iff a non-override
entry with that stem has been written, even though `main` extends the registry
with the very list `filesToQrc` mutated in place and returned; the duplication
affects counts only — after at least one external directory every registry
member occurs at least twice — and never skip decisions, which test
membership. -/
theorem c10_registry_membership :
    (∀ (ov reg fs : List String) (d : String) (loc : Bool) (es0 : List Entry),
       (∀ s, s ∈ reg ↔ s ∈ nonOvNames es0) →
       ∀ s, s ∈ (filesToQrc ov reg fs d loc).reg ↔
         s ∈ nonOvNames (es0 ++ (filesToQrc ov reg fs d loc).entries)) ∧
    (∀ (ov reg : List String) (ds : List DirInput) (es0 : List Entry),
       (∀ s, s ∈ reg ↔ s ∈ nonOvNames es0) →
       ∀ s, s ∈ (processDirs ov reg ds).reg ↔
         s ∈ nonOvNames (es0 ++ (processDirs ov reg ds).entries)) ∧
    (∀ (ov reg : List String) (ds : List DirInput), ds ≠ [] →
       ∀ s ∈ (processDirs ov reg ds).reg,
         2 ≤ (processDirs ov reg ds).reg.count s) := by
  refine ⟨?_, ?_, ?_⟩
  · intro ov reg fs d loc es0 h0 s
    rw [filesToQrc_reg ov d loc fs reg, nonOvNames_append, List.mem_append,
      List.mem_append, h0 s]
  · intro ov reg ds es0 h0 s
    rw [processDirs_reg_mem ds ov reg s, nonOvNames_append, List.mem_append, h0 s]
  · exact fun ov reg ds h s hs => processDirs_count_two ds ov reg h s hs

/-- Concrete instances of `c10_registry_membership`: membership equivalence
after one directory, and the at-least-two count from the self-extension. -/
theorem c10_witness :
    ("qt_hu" ∈ (processDirs [] [] [⟨"/w2", ["qt_hu.qm"]⟩]).reg ↔
      "qt_hu" ∈ nonOvNames ([] ++ (processDirs [] [] [⟨"/w2", ["qt_hu.qm"]⟩]).entries)) ∧
    "qtbase_nl" ∈ (processDirs [] [] [⟨"/w", ["qtbase_nl.qm"]⟩]).reg ∧
    2 ≤ (processDirs [] [] [⟨"/w", ["qtbase_nl.qm"]⟩]).reg.count "qtbase_nl" :=
  ⟨c10_registry_membership.2.1 [] [] [⟨"/w2", ["qt_hu.qm"]⟩] []
     (by simp [nonOvNames_nil]) "qt_hu",
   by decide,
   c10_registry_membership.2.2 [] [] [⟨"/w", ["qtbase_nl.qm"]⟩]
     (by simp) "qtbase_nl" (by decide)⟩

end MumbleQrc
